import Mathlib

/-!
# Verification of the MathForge expression/math core

Shallow embedding of the mathematical core of the MathForge calculator
repository (`safeEvaluate`, `evaluateScientific`, `parseFunction`,
`solveQuadratic`, `primeFactorize`, and the matrix algebra routines of
`services/mathService` / `constants.tsx`), together with proofs and
refutations of the specification's claims about them.

JavaScript numbers are modelled by `JSNum`: an exact rational for every
finite value plus the three non-finite values `Infinity`, `-Infinity`
and `NaN`.  Floating-point rounding and the signed zero are not
modelled; every concrete value appearing in a theorem below is exactly
representable, so this does not affect any statement made here.
-/

/-- Model of a JavaScript number: a finite value (an exact rational),
positive or negative infinity, or NaN. -/
inductive JSNum where
  | fin (q : ℚ)
  | inf
  | negInf
  | nan
deriving DecidableEq, Repr

namespace JSNum

/-- `Number.isFinite`: true exactly on finite values (not NaN/±Infinity). -/
def isFinite : JSNum → Bool
  | .fin _ => true
  | _ => false

/-- Truncation toward zero of a rational, as JavaScript's `Math.trunc`
and the `%` operator use it. -/
def qtrunc (q : ℚ) : ℤ :=
  if 0 ≤ q then ⌊q⌋ else ⌈q⌉

/-- JavaScript `+` on numbers. -/
def jsAdd : JSNum → JSNum → JSNum
  | .nan, _ => .nan
  | _, .nan => .nan
  | .inf, .negInf => .nan
  | .negInf, .inf => .nan
  | .inf, _ => .inf
  | _, .inf => .inf
  | .negInf, _ => .negInf
  | _, .negInf => .negInf
  | .fin a, .fin b => .fin (a + b)

/-- JavaScript binary `-` on numbers. -/
def jsSub : JSNum → JSNum → JSNum
  | .nan, _ => .nan
  | _, .nan => .nan
  | .inf, .inf => .nan
  | .negInf, .negInf => .nan
  | .inf, _ => .inf
  | .negInf, _ => .negInf
  | _, .inf => .negInf
  | _, .negInf => .inf
  | .fin a, .fin b => .fin (a - b)

/-- JavaScript unary `-` on numbers. -/
def jsNeg : JSNum → JSNum
  | .nan => .nan
  | .inf => .negInf
  | .negInf => .inf
  | .fin a => .fin (-a)

/-- JavaScript `*` on numbers (`Infinity * 0 = NaN`, sign rules for
infinities). -/
def jsMul : JSNum → JSNum → JSNum
  | .nan, _ => .nan
  | _, .nan => .nan
  | .fin a, .fin b => .fin (a * b)
  | .inf, .inf => .inf
  | .inf, .negInf => .negInf
  | .negInf, .inf => .negInf
  | .negInf, .negInf => .inf
  | .inf, .fin b => if b = 0 then .nan else if 0 < b then .inf else .negInf
  | .fin a, .inf => if a = 0 then .nan else if 0 < a then .inf else .negInf
  | .negInf, .fin b => if b = 0 then .nan else if 0 < b then .negInf else .inf
  | .fin a, .negInf => if a = 0 then .nan else if 0 < a then .negInf else .inf

/-- JavaScript `/` on numbers: division by zero yields `±Infinity`
(`0/0 = NaN`), never an exception.  The signed zero (division by
negative zero) is not modelled. -/
def jsDiv : JSNum → JSNum → JSNum
  | .nan, _ => .nan
  | _, .nan => .nan
  | .fin a, .fin b =>
      if b = 0 then (if a = 0 then .nan else if 0 < a then .inf else .negInf)
      else .fin (a / b)
  | .fin _, .inf => .fin 0
  | .fin _, .negInf => .fin 0
  | .inf, .fin b => if 0 ≤ b then .inf else .negInf
  | .negInf, .fin b => if 0 ≤ b then .negInf else .inf
  | .inf, _ => .nan
  | .negInf, _ => .nan

/-- JavaScript `%` (truncated remainder): `a % b = a - b * trunc(a/b)`;
`x % 0 = NaN`, `±Infinity % x = NaN`, finite `a % ±Infinity = a`. -/
def jsMod : JSNum → JSNum → JSNum
  | .nan, _ => .nan
  | _, .nan => .nan
  | .inf, _ => .nan
  | .negInf, _ => .nan
  | .fin a, .inf => .fin a
  | .fin a, .negInf => .fin a
  | .fin a, .fin b =>
      if b = 0 then .nan else .fin (a - b * (qtrunc (a / b) : ℚ))

/-- JavaScript `**` / `Math.pow`.  `x ** 0 = 1` for every `x` (including
NaN), `1 ** ±Infinity = NaN`.  For a finite base and a finite non-integer
exponent the true result is generally irrational; that case (unused by
every claim) is modelled as NaN. -/
def jsPow (a b : JSNum) : JSNum :=
  match b with
  | .fin q =>
      if q = 0 then .fin 1
      else
        match a with
        | .nan => .nan
        | .inf => if 0 < q then .inf else .fin 0
        | .negInf =>
            if 0 < q then (if q.den = 1 ∧ q.num % 2 ≠ 0 then .negInf else .inf)
            else .fin 0
        | .fin x =>
            if q.den = 1 then
              if 0 ≤ q.num then .fin (x ^ q.num.toNat)
              else if x = 0 then .inf
              else .fin ((1 / x) ^ (-q.num).toNat)
            else .nan
  | .inf =>
      match a with
      | .nan => .nan
      | .fin x => if x = 1 ∨ x = -1 then .nan else if |x| < 1 then .fin 0 else .inf
      | .inf => .inf
      | .negInf => .inf
  | .negInf =>
      match a with
      | .nan => .nan
      | .fin x => if x = 1 ∨ x = -1 then .nan else if |x| < 1 then .inf else .fin 0
      | .inf => .fin 0
      | .negInf => .fin 0
  | .nan => .nan

/-- `Math.abs`. -/
def jsAbs : JSNum → JSNum
  | .fin q => .fin |q|
  | .inf => .inf
  | .negInf => .inf
  | .nan => .nan

/-- `Math.sign`. -/
def jsSign : JSNum → JSNum
  | .fin q => .fin (if q < 0 then -1 else if q = 0 then 0 else 1)
  | .inf => .fin 1
  | .negInf => .fin (-1)
  | .nan => .nan

/-- `Math.ceil`. -/
def jsCeil : JSNum → JSNum
  | .fin q => .fin (⌈q⌉ : ℚ)
  | x => x

/-- `Math.floor`. -/
def jsFloor : JSNum → JSNum
  | .fin q => .fin (⌊q⌋ : ℚ)
  | x => x

/-- `Math.round` (`= floor(x + 1/2)` on finite values, ties toward +∞). -/
def jsRound : JSNum → JSNum
  | .fin q => .fin (⌊q + 1/2⌋ : ℚ)
  | x => x

/-- `Math.trunc`. -/
def jsTrunc : JSNum → JSNum
  | .fin q => .fin (qtrunc q : ℚ)
  | x => x

/-- The `factorial` helper of the source: NaN for negative or non-integer
input, saturation to `Infinity` above 170, else the exact product loop. -/
def jsFactorial : JSNum → JSNum
  | .fin q =>
      if q < 0 ∨ q.den ≠ 1 then .nan
      else if 170 < q then .inf
      else .fin (Nat.factorial q.num.toNat : ℚ)
  | _ => .nan

/-- Binary minimum with NaN contagion, `-Infinity` dominant. -/
def jsMin2 : JSNum → JSNum → JSNum
  | .nan, _ => .nan
  | _, .nan => .nan
  | .negInf, _ => .negInf
  | _, .negInf => .negInf
  | .fin a, .fin b => .fin (min a b)
  | .inf, b => b
  | a, .inf => a

/-- Binary maximum with NaN contagion, `Infinity` dominant. -/
def jsMax2 : JSNum → JSNum → JSNum
  | .nan, _ => .nan
  | _, .nan => .nan
  | .inf, _ => .inf
  | _, .inf => .inf
  | .fin a, .fin b => .fin (max a b)
  | .negInf, b => b
  | a, .negInf => a

/-- `Math.min(...)`: fold from `Infinity`. -/
def jsMinList (l : List JSNum) : JSNum := l.foldl jsMin2 .inf

/-- `Math.max(...)`: fold from `-Infinity`. -/
def jsMaxList (l : List JSNum) : JSNum := l.foldl jsMax2 .negInf

end JSNum

/-! ## Characters, the sanitizer allow-list, and `String.trim`

`safeEvaluate` sanitizes with the regex `[^0-9+\-*\/().\s%]` and compares
the result against `expression.trim()`.  The regex class `\s` and the
set of characters removed by `trim` are modelled by one predicate
`jsWhitespace` (in JavaScript both consist of the whitespace and line
terminator code points; only the common members are listed, which is
irrelevant to every claim since the two sides of the comparison use the
same set). -/

/-- The JavaScript whitespace class (`\s`, also used by `trim`). -/
def jsWhitespace (c : Char) : Bool :=
  c = ' ' || c = '\t' || c = '\n' || c = '\r' || c = '\x0b' || c = '\x0c' ||
  c = ' ' || c = '﻿'

/-- The allow-list of `safeEvaluate`'s sanitizer: characters NOT removed
by `replace(regex, '')` for the class `[^0-9+\-*\/().\s%]`. -/
def allowedBasic (c : Char) : Bool :=
  c.isDigit || c = '+' || c = '-' || c = '*' || c = '/' || c = '(' ||
  c = ')' || c = '.' || c = '%' || jsWhitespace c

/-- JavaScript `String.prototype.trim`: drop whitespace from both ends. -/
def trimJS (l : List Char) : List Char :=
  ((l.dropWhile jsWhitespace).reverse.dropWhile jsWhitespace).reverse

/-! ## Tokens and the expression grammar

The strings handed to `new Function` by this code are arithmetic
expressions over numeric literals, identifiers (after the rewriting
passes these are `x`, `Math.PI`, `Math.E` and `FN.`-qualified function
names; member chains are single tokens here), calls, parentheses and the
operators `+ - * / % **`.  They are modelled by a tokenizer and a
recursive-descent parser with JavaScript's precedence (the parser uses
an explicit step bound consumed once per recursion step; every use below
supplies a bound that is amply sufficient for its concrete input). -/

/-- A token of the evaluated expression language. -/
inductive Tok where
  | num (q : ℚ)
  | ident (s : String)
  | lp
  | rp
  | comma
  | plus
  | minus
  | star
  | slash
  | percent
  | pow
  | bad
deriving DecidableEq, Repr

/-- Numeric value of a digit string. -/
def digitsVal (ds : List Char) : ℕ :=
  ds.foldl (fun a c => a * 10 + (c.toNat - 48)) 0

/-- Value of a literal `ds.fs` with integer part `ds` and fraction `fs`. -/
def numLitVal (ds fs : List Char) : ℚ :=
  (digitsVal ds : ℚ) + (digitsVal fs : ℚ) / (10 : ℚ) ^ fs.length

/-- First character of an identifier (letters; `FN`, `Math` are upper). -/
def isIdentStart (c : Char) : Bool := c.isAlpha

/-- Continuation character of an identifier token: letters, digits and
`.` (member access like `FN.log10` is one token here). -/
def isIdentChar (c : Char) : Bool := c.isAlpha || c.isDigit || c = '.'

/-- Tokenizer, consuming at least one character per step (`fuel` is the
length of the remaining input at the top call). -/
def tokenizeAux : ℕ → List Char → List Tok
  | 0, _ => []
  | _, [] => []
  | fuel + 1, c :: rest =>
    if jsWhitespace c then tokenizeAux fuel rest
    else if c = '(' then .lp :: tokenizeAux fuel rest
    else if c = ')' then .rp :: tokenizeAux fuel rest
    else if c = ',' then .comma :: tokenizeAux fuel rest
    else if c = '+' then .plus :: tokenizeAux fuel rest
    else if c = '-' then .minus :: tokenizeAux fuel rest
    else if c = '/' then .slash :: tokenizeAux fuel rest
    else if c = '%' then .percent :: tokenizeAux fuel rest
    else if c = '*' then
      match rest with
      | '*' :: r2 => .pow :: tokenizeAux fuel r2
      | _ => .star :: tokenizeAux fuel rest
    else if c.isDigit ∨ c = '.' then
      let ds := (c :: rest).takeWhile Char.isDigit
      let r1 := (c :: rest).dropWhile Char.isDigit
      match r1 with
      | '.' :: r2 =>
          let fs := r2.takeWhile Char.isDigit
          let r3 := r2.dropWhile Char.isDigit
          if ds.isEmpty && fs.isEmpty then [.bad]
          else .num (numLitVal ds fs) :: tokenizeAux fuel r3
      | _ => .num (numLitVal ds []) :: tokenizeAux fuel r1
    else if isIdentStart c then
      let id := (c :: rest).takeWhile isIdentChar
      let r1 := (c :: rest).dropWhile isIdentChar
      .ident (String.mk id) :: tokenizeAux fuel r1
    else [.bad]

/-- Tokenize a character list. -/
def tokenize (l : List Char) : List Tok := tokenizeAux l.length l

mutual
/-- Abstract syntax of the evaluated expressions. -/
inductive Expr where
  | num (q : ℚ)
  | bare (name : String)
  | call (name : String) (args : ExprList)
  | neg (a : Expr)
  | pos (a : Expr)
  | add (a b : Expr)
  | sub (a b : Expr)
  | mul (a b : Expr)
  | div (a b : Expr)
  | mod (a b : Expr)
  | pow (a b : Expr)
inductive ExprList where
  | nil
  | cons (e : Expr) (es : ExprList)
end

mutual
/-- `additive := multiplicative (('+' | '-') multiplicative)*` -/
def parseAdd : ℕ → List Tok → Option (Expr × List Tok)
  | 0, _ => none
  | fuel + 1, toks => do
      let (e, r) ← parseMul fuel toks
      parseAddRest fuel e r

def parseAddRest : ℕ → Expr → List Tok → Option (Expr × List Tok)
  | 0, _, _ => none
  | fuel + 1, acc, toks =>
    match toks with
    | .plus :: r => do
        let (e, r2) ← parseMul fuel r
        parseAddRest fuel (.add acc e) r2
    | .minus :: r => do
        let (e, r2) ← parseMul fuel r
        parseAddRest fuel (.sub acc e) r2
    | _ => some (acc, toks)

/-- `multiplicative := unary (('*' | '/' | '%') unary)*` -/
def parseMul : ℕ → List Tok → Option (Expr × List Tok)
  | 0, _ => none
  | fuel + 1, toks => do
      let (e, r) ← parseUnary fuel toks
      parseMulRest fuel e r

def parseMulRest : ℕ → Expr → List Tok → Option (Expr × List Tok)
  | 0, _, _ => none
  | fuel + 1, acc, toks =>
    match toks with
    | .star :: r => do
        let (e, r2) ← parseUnary fuel r
        parseMulRest fuel (.mul acc e) r2
    | .slash :: r => do
        let (e, r2) ← parseUnary fuel r
        parseMulRest fuel (.div acc e) r2
    | .percent :: r => do
        let (e, r2) ← parseUnary fuel r
        parseMulRest fuel (.mod acc e) r2
    | _ => some (acc, toks)

/-- `unary := '-' unary | '+' unary | power`; as in JavaScript a unary
operator may not be the immediate left operand of `**`. -/
def parseUnary : ℕ → List Tok → Option (Expr × List Tok)
  | 0, _ => none
  | fuel + 1, toks =>
    match toks with
    | .minus :: r => do
        let (e, r2) ← parseUnary fuel r
        pure (.neg e, r2)
    | .plus :: r => do
        let (e, r2) ← parseUnary fuel r
        pure (.pos e, r2)
    | _ => parsePow fuel toks

/-- `power := atom ('**' unary)?` (right associative). -/
def parsePow : ℕ → List Tok → Option (Expr × List Tok)
  | 0, _ => none
  | fuel + 1, toks => do
      let (a, r) ← parseAtom fuel toks
      match r with
      | .pow :: r2 => do
          let (b, r3) ← parseUnary fuel r2
          pure (.pow a b, r3)
      | _ => pure (a, r)

/-- `atom := number | identifier | identifier '(' args ')' | '(' expr ')'` -/
def parseAtom : ℕ → List Tok → Option (Expr × List Tok)
  | 0, _ => none
  | fuel + 1, toks =>
    match toks with
    | .num q :: r => some (.num q, r)
    | .ident s :: .lp :: r => do
        let (args, r2) ← parseArgs fuel r
        pure (.call s args, r2)
    | .ident s :: r => some (.bare s, r)
    | .lp :: r => do
        let (e, r2) ← parseAdd fuel r
        match r2 with
        | .rp :: r3 => pure (e, r3)
        | _ => none
    | _ => none

/-- Argument list after an opening parenthesis, up to and including the
closing one. -/
def parseArgs : ℕ → List Tok → Option (ExprList × List Tok)
  | 0, _ => none
  | fuel + 1, toks =>
    match toks with
    | .rp :: r => some (.nil, r)
    | _ => do
        let (e, r) ← parseAdd fuel toks
        parseArgsRest fuel e r

def parseArgsRest : ℕ → Expr → List Tok → Option (ExprList × List Tok)
  | 0, _, _ => none
  | fuel + 1, e, toks =>
    match toks with
    | .rp :: r => some (.cons e .nil, r)
    | .comma :: r => do
        let (e2, r2) ← parseAdd fuel r
        let (es, r3) ← parseArgsRest fuel e2 r2
        match es, r3 with
        | es, r3 => pure (.cons e es, r3)
    | _ => none
end

/-- Parse a whole token list as one expression (the body of the
generated `return ...;`); leftover tokens are a syntax error. -/
def parseTop (toks : List Tok) : Option Expr :=
  if toks.contains .bad then none
  else
    match parseAdd (4 * toks.length + 8) toks with
    | some (e, []) => some e
    | _ => none

/-! ## Evaluation

The scope an expression is evaluated in maps a name to a numeric value,
to a callable from the fixed function table, or to nothing.  A thrown
exception (calling a non-callable, referencing an unbound name) is the
`none` outcome; the `try { ... } catch` wrappers in the source convert
it to `null`.  Referencing (not calling) a name bound to a callable
would in JavaScript produce the function object itself, which is not a
number; it is modelled as the thrown/failed outcome as well (no claim
exercises it). -/

/-- What a name resolves to during evaluation. -/
inductive EnvEntry where
  | val (v : JSNum)
  | fn (f : List JSNum → JSNum)
  | missing

/-- An evaluation scope. -/
def Env : Type := String → EnvEntry

mutual
/-- Evaluate an expression; `none` models a thrown exception. -/
def evalExpr (env : Env) : Expr → Option JSNum
  | .num q => some (.fin q)
  | .bare name =>
      match env name with
      | .val v => some v
      | _ => none
  | .call name args =>
      match env name with
      | .fn f => do
          let vs ← evalArgs env args
          pure (f vs)
      | _ => none
  | .neg a => do pure (JSNum.jsNeg (← evalExpr env a))
  | .pos a => evalExpr env a
  | .add a b => do pure (JSNum.jsAdd (← evalExpr env a) (← evalExpr env b))
  | .sub a b => do pure (JSNum.jsSub (← evalExpr env a) (← evalExpr env b))
  | .mul a b => do pure (JSNum.jsMul (← evalExpr env a) (← evalExpr env b))
  | .div a b => do pure (JSNum.jsDiv (← evalExpr env a) (← evalExpr env b))
  | .mod a b => do pure (JSNum.jsMod (← evalExpr env a) (← evalExpr env b))
  | .pow a b => do pure (JSNum.jsPow (← evalExpr env a) (← evalExpr env b))

/-- Evaluate an argument list, left to right. -/
def evalArgs (env : Env) : ExprList → Option (List JSNum)
  | .nil => some []
  | .cons e es => do
      let v ← evalExpr env e
      let vs ← evalArgs env es
      pure (v :: vs)
end

/-- The empty scope (`safeEvaluate`'s generated function binds nothing). -/
def emptyEnv : Env := fun _ => .missing

/-! ## `safeEvaluate` -/

/-- `safeEvaluate` (services/mathService): strip every character outside
the allow-list, refuse (`null`) unless the result equals the trimmed
input, then evaluate via a generated function, converting any thrown
exception to `null`.  There is no finiteness check on the result. -/
def safeEvaluate (s : String) : Option JSNum :=
  let sanitized := s.toList.filter allowedBasic
  if sanitized = trimJS s.toList then
    match parseTop (tokenize sanitized) with
    | some ast => evalExpr emptyEnv ast
    | none => none
  else none

example : safeEvaluate "2+2" = some (.fin 4) := by with_unfolding_all decide
example : safeEvaluate "1/0" = some .inf := by with_unfolding_all decide
example : safeEvaluate " 2+2" = none := by with_unfolding_all decide
example : safeEvaluate "2+a" = none := by with_unfolding_all decide
example : safeEvaluate "2+" = none := by with_unfolding_all decide


/-! ## The sanitizer guard of `safeEvaluate` -/

lemma allowed_of_ws {c : Char} (h : jsWhitespace c = true) :
    allowedBasic c = true := by
  simp [allowedBasic, h]

/-- The first element surviving `dropWhile p` falsifies `p`. -/
lemma dropWhile_cons_false {p : Char → Bool} :
    ∀ {l r : List Char} {c : Char}, l.dropWhile p = c :: r → p c = false := by
  intro l
  induction l with
  | nil => intro r c h; simp at h
  | cons a t ih =>
      intro r c h
      rw [List.dropWhile_cons] at h
      by_cases hp : p a = true
      · rw [if_pos hp] at h
        exact ih h
      · rw [if_neg hp] at h
        have : a = c := (List.cons.injEq _ _ _ _).mp h |>.1
        rw [← this]
        exact Bool.not_eq_true _ |>.mp hp

/-- Decomposition of a list around its trimmed core: the dropped prefix
and suffix are whitespace, and the core neither starts nor ends with
whitespace. -/
lemma trimJS_decomp (l : List Char) :
    ∃ pre suf,
      l = pre ++ trimJS l ++ suf ∧
      (∀ c ∈ pre, jsWhitespace c = true) ∧
      (∀ c ∈ suf, jsWhitespace c = true) ∧
      (∀ c r, trimJS l = c :: r → jsWhitespace c = false) ∧
      (∀ c r, (trimJS l).reverse = c :: r → jsWhitespace c = false) := by
  have hpre : trimJS l ++
      ((l.dropWhile jsWhitespace).reverse.takeWhile jsWhitespace).reverse
      = l.dropWhile jsWhitespace := by
    unfold trimJS
    conv_rhs =>
      rw [← List.reverse_reverse (l.dropWhile jsWhitespace),
        ← List.takeWhile_append_dropWhile jsWhitespace
            (l.dropWhile jsWhitespace).reverse]
    rw [List.reverse_append]
  refine ⟨l.takeWhile jsWhitespace,
    ((l.dropWhile jsWhitespace).reverse.takeWhile jsWhitespace).reverse,
    ?_, ?_, ?_, ?_, ?_⟩
  · conv_lhs => rw [← List.takeWhile_append_dropWhile jsWhitespace l]
    rw [List.append_assoc, hpre]
  · exact fun c hc => List.mem_takeWhile_imp hc
  · intro c hc
    rw [List.mem_reverse] at hc
    exact List.mem_takeWhile_imp hc
  · intro c r hcr
    rw [hcr, List.cons_append] at hpre
    exact dropWhile_cons_false hpre.symm
  · intro c r hcr
    rw [trimJS, List.reverse_reverse] at hcr
    exact dropWhile_cons_false hcr

/-- If the sanitized string equals the trimmed input (the guard of
`safeEvaluate` passes), every character of the input is allow-listed. -/
lemma all_allowed_of_filter_eq_trim {l : List Char}
    (h : l.filter allowedBasic = trimJS l) :
    ∀ c ∈ l, allowedBasic c = true := by
  obtain ⟨pre, suf, hdec, hpre, hsuf, hhead, hlast⟩ := trimJS_decomp l
  have hfpre : pre.filter allowedBasic = pre :=
    List.filter_eq_self.mpr (fun a ha => allowed_of_ws (hpre a ha))
  have hfsuf : suf.filter allowedBasic = suf :=
    List.filter_eq_self.mpr (fun a ha => allowed_of_ws (hsuf a ha))
  set t := trimJS l with ht
  rw [hdec, List.filter_append, List.filter_append, hfpre, hfsuf] at h
  cases hmid : t with
  | nil =>
      rw [hmid] at h
      simp only [List.filter_nil, List.nil_append] at h
      have h1 : pre = [] ∧ suf = [] := by simpa using h
      intro c hc
      rw [hdec, hmid, h1.1, h1.2] at hc
      simp at hc
  | cons m0 mrest =>
      have hm0 : jsWhitespace m0 = false := hhead m0 mrest hmid
      cases hp : pre with
      | cons p0 pr =>
          rw [hp, hmid, List.cons_append] at h
          have hpm : p0 = m0 := (List.cons.injEq _ _ _ _).mp h |>.1
          have hws : jsWhitespace p0 = true := hpre p0 (by simp [hp])
          rw [hpm, hm0] at hws
          exact absurd hws (by simp)
      | nil =>
          rw [hp, List.nil_append] at h
          have hrev : suf.reverse ++ (t.filter allowedBasic).reverse
              = t.reverse := by
            rw [← List.reverse_append, h]
          cases hs : suf.reverse with
          | cons s0 sr =>
              rw [hs, List.cons_append] at hrev
              have hws0 : jsWhitespace s0 = false :=
                hlast s0 (sr ++ (t.filter allowedBasic).reverse) hrev.symm
              have hmem : s0 ∈ suf := by
                rw [← List.mem_reverse, hs]
                exact List.mem_cons_self _ _
              have hws := hsuf s0 hmem
              rw [hws0] at hws
              exact absurd hws (by simp)
          | nil =>
              have hsufnil : suf = [] := by
                rw [← List.reverse_reverse suf, hs]
                rfl
              rw [hsufnil, List.append_nil] at h
              have hall := List.filter_eq_self.mp h
              intro c hc
              rw [hdec, hp, hsufnil, List.nil_append, List.append_nil] at hc
              exact hall c hc

/-- C2: for every input string containing at least one character outside
the allow-list (digits, `+ - * / ( ) . %` and whitespace), `safeEvaluate`
returns null rather than evaluating anything; and a numeric result is
only ever produced from an entirely allow-listed string. -/
theorem C2_safeEvaluate_allowlist (s : String) :
    ((∃ c ∈ s.toList, allowedBasic c = false) → safeEvaluate s = none) ∧
    (∀ v, safeEvaluate s = some v → ∀ c ∈ s.toList, allowedBasic c = true) := by
  have key : (∃ c ∈ s.toList, allowedBasic c = false) → safeEvaluate s = none := by
    rintro ⟨c, hc, hbad⟩
    unfold safeEvaluate
    rw [if_neg]
    intro heq
    have := all_allowed_of_filter_eq_trim heq c hc
    rw [hbad] at this
    exact absurd this (by simp)
  refine ⟨key, fun v hv c hc => ?_⟩
  by_contra hb
  rw [key ⟨c, hc, Bool.not_eq_true _ |>.mp hb⟩] at hv
  exact Option.noConfusion hv

/-- C2 witness: `safeEvaluate "2+a"` refuses because of the character
`a`. -/
theorem C2_safeEvaluate_allowlist_witness : safeEvaluate "2+a" = none :=
  (C2_safeEvaluate_allowlist "2+a").1
    ⟨'a', by with_unfolding_all decide, by with_unfolding_all decide⟩

/-- `dropWhile` never lengthens a list. -/
lemma length_dropWhile_le (p : Char → Bool) (l : List Char) :
    (l.dropWhile p).length ≤ l.length := by
  conv_rhs => rw [← List.takeWhile_append_dropWhile p l]
  rw [List.length_append]
  omega

/-- C10: an otherwise fully allow-listed input with a leading or trailing
whitespace character is refused by `safeEvaluate` (the sanitized string
keeps the edge whitespace while the comparand is trimmed). -/
theorem C10_safeEvaluate_edge_whitespace (s : String)
    (hall : ∀ c ∈ s.toList, allowedBasic c = true)
    (hedge : (∃ c r, s.toList = c :: r ∧ jsWhitespace c = true) ∨
             (∃ c r, s.toList.reverse = c :: r ∧ jsWhitespace c = true)) :
    safeEvaluate s = none := by
  have hfilter : s.toList.filter allowedBasic = s.toList :=
    List.filter_eq_self.mpr hall
  have hlen : (trimJS s.toList).length < s.toList.length := by
    set l := s.toList with hl
    have hlen1 : (trimJS l).length ≤ (l.dropWhile jsWhitespace).length := by
      unfold trimJS
      rw [List.length_reverse]
      calc ((l.dropWhile jsWhitespace).reverse.dropWhile jsWhitespace).length
          ≤ (l.dropWhile jsWhitespace).reverse.length :=
            length_dropWhile_le _ _
        _ = (l.dropWhile jsWhitespace).length := List.length_reverse _
    rcases hedge with ⟨c, r, hcr, hws⟩ | ⟨c, r, hcr, hws⟩
    · calc (trimJS l).length ≤ (l.dropWhile jsWhitespace).length := hlen1
        _ = ((c :: r).dropWhile jsWhitespace).length := by rw [hcr]
        _ = (r.dropWhile jsWhitespace).length := by
              rw [List.dropWhile_cons, if_pos hws]
        _ ≤ r.length := length_dropWhile_le _ _
        _ < l.length := by rw [hcr]; simp
    · cases hL1 : l.dropWhile jsWhitespace with
      | nil =>
          have : (trimJS l).length = 0 := by
            unfold trimJS; rw [hL1]; simp
          rw [this]
          have : l.length = l.reverse.length := (List.length_reverse _).symm
          rw [this, hcr]
          simp
      | cons d dr =>
          -- the last element of `l` survives `dropWhile` (it drops a prefix),
          -- so the reverse of the result starts with the trailing whitespace
          have hsplit := List.takeWhile_append_dropWhile jsWhitespace l
          have hrev : l.reverse = (l.dropWhile jsWhitespace).reverse ++
              (l.takeWhile jsWhitespace).reverse := by
            rw [← List.reverse_append, hsplit]
          rw [hL1] at hrev
          rw [hcr] at hrev
          cases hdr : (d :: dr).reverse with
          | nil => simp at hdr
          | cons e er =>
              rw [hdr, List.cons_append] at hrev
              have hce : c = e := (List.cons.injEq _ _ _ _).mp hrev |>.1
              have hwse : jsWhitespace e = true := hce ▸ hws
              have : (trimJS l).length ≤ er.length := by
                unfold trimJS
                rw [List.length_reverse, hL1, hdr, List.dropWhile_cons,
                  if_pos hwse]
                exact length_dropWhile_le _ _
              have her : dr.length = er.length := by
                have := congrArg List.length hdr
                simpa using this
              have hdrl : (d :: dr).length ≤ l.length := by
                rw [← hL1]
                exact length_dropWhile_le _ _
              simp at hdrl
              omega
  unfold safeEvaluate
  rw [if_neg]
  intro heq
  rw [hfilter] at heq
  have := congrArg List.length heq
  omega

/-- C10 witness: a leading blank makes `" 2+2"` fail even though it is
valid arithmetic. -/
theorem C10_safeEvaluate_edge_whitespace_witness : safeEvaluate " 2+2" = none :=
  C10_safeEvaluate_edge_whitespace " 2+2"
    (by with_unfolding_all decide)
    (Or.inl ⟨' ', ['2', '+', '2'], by with_unfolding_all decide,
      by with_unfolding_all decide⟩)

/-- C1 counterexample: `safeEvaluate "1/0"` returns `Infinity` as a
number instead of signalling the non-finite outcome as null. -/
theorem C1_counterexample_one_div_zero :
    safeEvaluate "1/0" = some JSNum.inf ∧ JSNum.isFinite JSNum.inf = false := by
  with_unfolding_all decide

/-! ## `parseFunction`: the graph-plotter's function compiler

The transcendental `Math.*` primitives have irrational values on almost
all rational inputs, so they enter the model as parameters (a `Prims`
record of functions on `JSNum` plus the two float constants `Math.PI`
and `Math.E` as abstract rationals).  Claims about them carry the
relevant IEEE facts (`Math.sin(0) = 0`, `Math.sqrt(-1) = NaN`) as
hypotheses, discharged at concrete instances in the witnesses.  The
integer-valued table entries (`abs`, `floor`, `factorial`, ...) are
modelled exactly. -/

/-- The native `Math` primitives used by the function table. -/
structure Prims where
  sin : JSNum → JSNum
  cos : JSNum → JSNum
  tan : JSNum → JSNum
  asin : JSNum → JSNum
  acos : JSNum → JSNum
  atan : JSNum → JSNum
  sinh : JSNum → JSNum
  cosh : JSNum → JSNum
  tanh : JSNum → JSNum
  asinh : JSNum → JSNum
  acosh : JSNum → JSNum
  atanh : JSNum → JSNum
  sqrt : JSNum → JSNum
  cbrt : JSNum → JSNum
  exp : JSNum → JSNum
  ln : JSNum → JSNum
  log10 : JSNum → JSNum
  pi : ℚ
  e : ℚ

/-- First argument of a call (a missing argument is `undefined`, which
the numeric primitives coerce to NaN). -/
def arg0 (args : List JSNum) : JSNum := args.getD 0 .nan

/-- Second argument of a call. -/
def arg1 (args : List JSNum) : JSNum := args.getD 1 .nan

/-- `customLog(x, base)` with a present base: NaN for `base <= 0` or
`base === 1`, else `ln x / ln base`. -/
def customLogB (P : Prims) (x b : JSNum) : JSNum :=
  match b with
  | .fin q => if q ≤ 0 ∨ q = 1 then .nan
              else JSNum.jsDiv (P.ln x) (P.ln (.fin q))
  | .negInf => .nan
  | b => JSNum.jsDiv (P.ln x) (P.ln b)

/-- The keys of `funcMap`, in source (insertion) order — the order the
alternation of the function-qualifying regex tries them in. -/
def funcNames : List String :=
  ["sin", "cos", "tan", "asin", "acos", "atan", "sinh", "cosh", "tanh",
   "asinh", "acosh", "atanh", "sqrt", "cbrt", "abs", "sign", "ceil",
   "floor", "round", "trunc", "exp", "pow", "min", "max", "log", "log10",
   "log2", "ln", "sec", "csc", "cot", "asec", "acsc", "acot", "sech",
   "csch", "coth", "cosec", "fact", "factorial"]

/-- The `funcMap` object: name → callable. -/
def funcMapLookup (P : Prims) (n : String) : Option (List JSNum → JSNum) :=
  if n = "sin" then some (fun a => P.sin (arg0 a))
  else if n = "cos" then some (fun a => P.cos (arg0 a))
  else if n = "tan" then some (fun a => P.tan (arg0 a))
  else if n = "asin" then some (fun a => P.asin (arg0 a))
  else if n = "acos" then some (fun a => P.acos (arg0 a))
  else if n = "atan" then some (fun a => P.atan (arg0 a))
  else if n = "sinh" then some (fun a => P.sinh (arg0 a))
  else if n = "cosh" then some (fun a => P.cosh (arg0 a))
  else if n = "tanh" then some (fun a => P.tanh (arg0 a))
  else if n = "asinh" then some (fun a => P.asinh (arg0 a))
  else if n = "acosh" then some (fun a => P.acosh (arg0 a))
  else if n = "atanh" then some (fun a => P.atanh (arg0 a))
  else if n = "sqrt" then some (fun a => P.sqrt (arg0 a))
  else if n = "cbrt" then some (fun a => P.cbrt (arg0 a))
  else if n = "abs" then some (fun a => JSNum.jsAbs (arg0 a))
  else if n = "sign" then some (fun a => JSNum.jsSign (arg0 a))
  else if n = "ceil" then some (fun a => JSNum.jsCeil (arg0 a))
  else if n = "floor" then some (fun a => JSNum.jsFloor (arg0 a))
  else if n = "round" then some (fun a => JSNum.jsRound (arg0 a))
  else if n = "trunc" then some (fun a => JSNum.jsTrunc (arg0 a))
  else if n = "exp" then some (fun a => P.exp (arg0 a))
  else if n = "pow" then some (fun a => JSNum.jsPow (arg0 a) (arg1 a))
  else if n = "min" then some (fun a => JSNum.jsMinList a)
  else if n = "max" then some (fun a => JSNum.jsMaxList a)
  else if n = "log" then
    some (fun a => match a.get? 1 with
      | none => P.ln (arg0 a)
      | some b => customLogB P (arg0 a) b)
  else if n = "log10" then some (fun a => customLogB P (arg0 a) (.fin 10))
  else if n = "log2" then some (fun a => customLogB P (arg0 a) (.fin 2))
  else if n = "ln" then some (fun a => P.ln (arg0 a))
  else if n = "sec" then some (fun a => JSNum.jsDiv (.fin 1) (P.cos (arg0 a)))
  else if n = "csc" then some (fun a => JSNum.jsDiv (.fin 1) (P.sin (arg0 a)))
  else if n = "cot" then some (fun a => JSNum.jsDiv (.fin 1) (P.tan (arg0 a)))
  else if n = "asec" then some (fun a => P.acos (JSNum.jsDiv (.fin 1) (arg0 a)))
  else if n = "acsc" then some (fun a => P.asin (JSNum.jsDiv (.fin 1) (arg0 a)))
  else if n = "acot" then some (fun a => JSNum.jsSub (.fin (P.pi / 2)) (P.atan (arg0 a)))
  else if n = "sech" then some (fun a => JSNum.jsDiv (.fin 1) (P.cosh (arg0 a)))
  else if n = "csch" then some (fun a => JSNum.jsDiv (.fin 1) (P.sinh (arg0 a)))
  else if n = "coth" then some (fun a => JSNum.jsDiv (.fin 1) (P.tanh (arg0 a)))
  else if n = "cosec" then some (fun a => JSNum.jsDiv (.fin 1) (P.sin (arg0 a)))
  else if n = "fact" then some (fun a => JSNum.jsFactorial (arg0 a))
  else if n = "factorial" then some (fun a => JSNum.jsFactorial (arg0 a))
  else none

/-- The whitelist of allowed identifiers: the function names plus the
constants `pi`, `e` and the variable `x`. -/
def knownIdentifiers : List String := funcNames ++ ["pi", "e", "x"]

/-- Lowercase ASCII letter (the regex class `[a-z]`). -/
def isAz (c : Char) : Bool := 'a' ≤ c && c ≤ 'z'

/-- Maximal runs of lowercase letters (the matches of `/[a-z]+/g`);
first argument accumulates the current run in reverse. -/
def lowerRunsAux : List Char → List Char → List (List Char)
  | cur, [] => if cur.isEmpty then [] else [cur.reverse]
  | cur, c :: rest =>
      if isAz c then lowerRunsAux (c :: cur) rest
      else if cur.isEmpty then lowerRunsAux [] rest
      else cur.reverse :: lowerRunsAux [] rest

/-- `funcStr.toLowerCase().match(/[a-z]+/g)`: every maximal lowercase
letter run of the lower-cased input. -/
def identifiersInUse (s : String) : List String :=
  (lowerRunsAux [] (s.toList.map Char.toLower)).map String.mk

/-- The validation loop: the first identifier in use that is not
whitelisted (the loop throws on it). -/
def firstUnknownIdent (s : String) : Option String :=
  (identifiersInUse s).find? (fun id => !(knownIdentifiers.contains id))

/-! ## The pre-processing rewrites of `parseFunction`

Each regex pass `str.replace(/(A)(B)/g, '$1*$2')` scans left to right
and, at a match, inserts `*` and resumes after the second character
(matches do not overlap).  The word-boundary replacements of `pi` and
`e` and the function-qualifying pass track whether the previous
character of the original string is a word character (`\b`). -/

/-- One implicit-multiplication pass: insert `*` between an `A`-character
immediately followed by a `B`-character, non-overlapping, left to
right. -/
def insertStarPass (pA pB : Char → Bool) : List Char → List Char
  | a :: b :: rest =>
      if pA a && pB b then a :: '*' :: b :: insertStarPass pA pB rest
      else a :: insertStarPass pA pB (b :: rest)
  | l => l

/-- `replace(/\^/g, '**')`. -/
def replaceCaret : List Char → List Char
  | [] => []
  | c :: r => if c = '^' then '*' :: '*' :: replaceCaret r else c :: replaceCaret r

/-- A word character for `\b` purposes (`[A-Za-z0-9_]`). -/
def isWordChar (c : Char) : Bool := c.isAlpha || c.isDigit || c = '_'

/-- Does a word boundary fall before this remainder? -/
def wordBoundary : List Char → Bool
  | [] => true
  | c :: _ => !(isWordChar c)

/-- `replace(/\bpi\b/g, 'Math.PI')`; the flag records whether the
previous character of the original input is a word character. -/
def replacePiWord : Bool → List Char → List Char
  | _, [] => []
  | prevW, 'p' :: 'i' :: rest =>
      if !prevW && wordBoundary rest then
        'M' :: 'a' :: 't' :: 'h' :: '.' :: 'P' :: 'I' :: replacePiWord true rest
      else 'p' :: replacePiWord true ('i' :: rest)
  | _, c :: rest => c :: replacePiWord (isWordChar c) rest

/-- `replace(/\be\b/g, 'Math.E')`. -/
def replaceEWord : Bool → List Char → List Char
  | _, [] => []
  | prevW, 'e' :: rest =>
      if !prevW && wordBoundary rest then
        'M' :: 'a' :: 't' :: 'h' :: '.' :: 'E' :: replaceEWord true rest
      else 'e' :: replaceEWord true rest
  | _, c :: rest => c :: replaceEWord (isWordChar c) rest

/-- Lookahead `(?=\s*\()`: optional whitespace then `(`. -/
def lookaheadLP (l : List Char) : Bool :=
  match l.dropWhile jsWhitespace with
  | '(' :: _ => true
  | _ => false

/-- First alternation branch of `\b(sin|cos|...)(?=\s*\()` matching at
this position; returns the matched name and the remainder after it. -/
def findFnMatch : List String → List Char → Option (String × List Char)
  | [], _ => none
  | n :: ns, l =>
      if n.toList.isPrefixOf l && lookaheadLP (l.drop n.toList.length) then
        some (n, l.drop n.toList.length)
      else findFnMatch ns l

/-- The function-qualifying pass: prefix each whitelisted function name
(at a word boundary, followed by optional whitespace and `(`) with
`FN.`.  One unit of the bound is consumed per scanned position; the
callers pass the input length, which always suffices. -/
def fnPrefixPass : ℕ → Bool → List Char → List Char
  | 0, _, l => l
  | _ + 1, _, [] => []
  | fuel + 1, prevW, c :: rest =>
      if prevW then c :: fnPrefixPass fuel (isWordChar c) rest
      else
        match findFnMatch funcNames (c :: rest) with
        | some (n, after) =>
            'F' :: 'N' :: '.' :: (n.toList ++ fnPrefixPass fuel true after)
        | none => c :: fnPrefixPass fuel (isWordChar c) rest

/-- The whole pre-processing pipeline of `parseFunction`: lower-case,
strip whitespace, the four implicit-multiplication passes (in source
order), `^` to `**`, whole-word `pi`/`e` to `Math.PI`/`Math.E`, then
qualify function names with `FN.`. -/
def preprocessPlot (s : String) : List Char :=
  let l0 := (s.toList.map Char.toLower).filter (fun c => !(jsWhitespace c))
  let l1 := insertStarPass Char.isDigit (fun c => isAz c || c = '(') l0
  let l2 := insertStarPass (fun c => c = ')')
    (fun c => isAz c || c.isDigit || c = '(') l1
  let l3 := insertStarPass (fun c => c = 'x') Char.isDigit l2
  let l4 := insertStarPass (fun c => c = 'x') (fun c => isAz c || c = '(') l3
  let l5 := replaceCaret l4
  let l6 := replacePiWord false l5
  let l7 := replaceEWord false l6
  fnPrefixPass l7.length false l7

/-- A parse-time failure of `parseFunction`: the unknown-identifier
throw (naming the token) or the generic could-not-parse throw. -/
inductive ParseErr where
  | unknownIdent (name : String)
  | syntaxErr
deriving DecidableEq, Repr

/-- Parse-time part of `parseFunction`: validate identifiers, rewrite,
and compile the body handed to `new Function`. -/
def compilePlot (s : String) : Except ParseErr Expr :=
  match firstUnknownIdent s with
  | some bad => .error (.unknownIdent bad)
  | none =>
      match parseTop (tokenize (preprocessPlot s)) with
      | some ast => .ok ast
      | none => .error .syntaxErr

/-- Member access on the identifier tokens: `FN.name` → `name`. -/
def stripFN (n : String) : Option String :=
  match n.toList with
  | 'F' :: 'N' :: '.' :: rest => some (String.mk rest)
  | _ => none

/-- The scope of the generated function: the parameter `x`, the global
`Math` constants, and the `FN` function table. -/
def plotEnv (P : Prims) (x : JSNum) : Env := fun n =>
  if n = "x" then .val x
  else if n = "Math.PI" then .val (.fin P.pi)
  else if n = "Math.E" then .val (.fin P.e)
  else
    match stripFN n with
    | some base =>
        match funcMapLookup P base with
        | some f => .fn f
        | none => .missing
    | none => .missing

/-- `parseFunction`: throws (returns an error) at parse time for an
unknown identifier or unparsable syntax, otherwise returns the compiled
sampler whose body is wrapped in `try { ... } catch { return null }`. -/
def parseFunction (P : Prims) (s : String) :
    Except ParseErr (JSNum → Option JSNum) :=
  (compilePlot s).map (fun ast => fun x => evalExpr (plotEnv P x) ast)

example : preprocessPlot "2x" = ['2', '*', 'x'] := by with_unfolding_all decide
example : String.mk (preprocessPlot "sin(x)") = "FN.sin(x)" := by
  with_unfolding_all decide
example : String.mk (preprocessPlot "2pi^x") = "2*Math.PI**x" := by
  with_unfolding_all decide

/-- A fully NaN-valued instance of the abstract primitives. -/
def trivPrims : Prims :=
  ⟨fun _ => .nan, fun _ => .nan, fun _ => .nan, fun _ => .nan, fun _ => .nan,
   fun _ => .nan, fun _ => .nan, fun _ => .nan, fun _ => .nan, fun _ => .nan,
   fun _ => .nan, fun _ => .nan, fun _ => .nan, fun _ => .nan, fun _ => .nan,
   fun _ => .nan, fun _ => .nan, 0, 0⟩

/-- An instance whose sine is constantly `0` (so `sin 0 = 0` holds
definitionally, as it does for `Math.sin`). -/
def zeroSinPrims : Prims :=
  ⟨fun _ => .fin 0, fun _ => .nan, fun _ => .nan, fun _ => .nan, fun _ => .nan,
   fun _ => .nan, fun _ => .nan, fun _ => .nan, fun _ => .nan, fun _ => .nan,
   fun _ => .nan, fun _ => .nan, fun _ => .nan, fun _ => .nan, fun _ => .nan,
   fun _ => .nan, fun _ => .nan, 0, 0⟩

/-- C4: an identifier (maximal lowercase-letter run of the lower-cased
input) outside the fixed vocabulary makes `parseFunction` fail at parse
time with an error naming an offending identifier; in particular
`parseFunction "foo(x)"` fails naming `foo`. -/
theorem C4_parseFunction_unknown_identifier (P : Prims) (s bad : String)
    (hmem : bad ∈ identifiersInUse s)
    (hunk : knownIdentifiers.contains bad = false) :
    (∃ b, parseFunction P s = .error (.unknownIdent b) ∧
      b ∈ identifiersInUse s ∧ knownIdentifiers.contains b = false) ∧
    parseFunction P "foo(x)" = .error (.unknownIdent "foo") := by
  constructor
  · have hne : firstUnknownIdent s ≠ none := by
      intro h0
      rw [firstUnknownIdent, List.find?_eq_none] at h0
      have := h0 bad hmem
      rw [hunk] at this
      simp at this
    cases hfind : firstUnknownIdent s with
    | none => exact absurd hfind hne
    | some b =>
        refine ⟨b, ?_, ?_, ?_⟩
        · rw [parseFunction, compilePlot, hfind]
          rfl
        · exact List.mem_of_find?_eq_some hfind
        · have := List.find?_some hfind
          simpa using this
  · have hfoo : firstUnknownIdent "foo(x)" = some "foo" := by
      with_unfolding_all decide
    rw [parseFunction, compilePlot, hfoo]
    rfl

/-- C4 witness: the concrete failing input `foo(x)`. -/
theorem C4_parseFunction_unknown_identifier_witness :
    (∃ b, parseFunction trivPrims "foo(x)" = .error (.unknownIdent b) ∧
      b ∈ identifiersInUse "foo(x)" ∧ knownIdentifiers.contains b = false) ∧
    parseFunction trivPrims "foo(x)" = .error (.unknownIdent "foo") :=
  C4_parseFunction_unknown_identifier trivPrims "foo(x)" "foo"
    (by with_unfolding_all decide) (by with_unfolding_all decide)

/-- C5: the digit–letter / digit–parenthesis implicit-multiplication
insertion: the compiled function for `2x` at `x = 3` returns `6`, and
the compiled function for `sin(x)` at `x = 0` returns `0` (given the
IEEE fact `Math.sin(0) = 0`). -/
theorem C5_implicit_multiplication (P : Prims)
    (hsin : P.sin (.fin 0) = .fin 0) :
    (∃ f, parseFunction P "2x" = .ok f ∧ f (.fin 3) = some (.fin 6)) ∧
    (∃ g, parseFunction P "sin(x)" = .ok g ∧ g (.fin 0) = some (.fin 0)) := by
  constructor
  · have hc : compilePlot "2x" = .ok (Expr.mul (.num 2) (.bare "x")) := by
      with_unfolding_all rfl
    refine ⟨_, by rw [parseFunction, hc]; rfl, ?_⟩
    with_unfolding_all rfl
  · have hc : compilePlot "sin(x)" =
        .ok (Expr.call "FN.sin" (.cons (.bare "x") .nil)) := by
      with_unfolding_all rfl
    refine ⟨_, by rw [parseFunction, hc]; rfl, ?_⟩
    have hval : evalExpr (plotEnv P (.fin 0))
        (.call "FN.sin" (.cons (.bare "x") .nil)) = some (P.sin (.fin 0)) := by
      with_unfolding_all rfl
    show evalExpr (plotEnv P (.fin 0))
      (.call "FN.sin" (.cons (.bare "x") .nil)) = some (.fin 0)
    rw [hval, hsin]

/-- C5 witness: a concrete primitive instance with `sin 0 = 0`. -/
theorem C5_implicit_multiplication_witness :
    (∃ f, parseFunction zeroSinPrims "2x" = .ok f ∧
       f (.fin 3) = some (.fin 6)) ∧
    (∃ g, parseFunction zeroSinPrims "sin(x)" = .ok g ∧
       g (.fin 0) = some (.fin 0)) :=
  C5_implicit_multiplication zeroSinPrims rfl

/-- C3: evaluating the compiled `sqrt(x)` at `x = -1` yields the value
NaN (because `Math.sqrt(-1)` is NaN, not a thrown exception), so the
sample is NOT the null the claim and the source's own comment promise:
the `catch` branch never fires. -/
theorem C3_sqrt_neg_sample_is_nan_not_null (P : Prims)
    (hsqrt : P.sqrt (.fin (-1)) = .nan) :
    ∃ f, parseFunction P "sqrt(x)" = .ok f ∧
      f (.fin (-1)) = some JSNum.nan ∧ f (.fin (-1)) ≠ none := by
  have hc : compilePlot "sqrt(x)" =
      .ok (Expr.call "FN.sqrt" (.cons (.bare "x") .nil)) := by
    with_unfolding_all rfl
  refine ⟨_, by rw [parseFunction, hc]; rfl, ?_, ?_⟩
  · have hval : evalExpr (plotEnv P (.fin (-1)))
        (.call "FN.sqrt" (.cons (.bare "x") .nil))
        = some (P.sqrt (.fin (-1))) := by
      with_unfolding_all rfl
    show evalExpr (plotEnv P (.fin (-1)))
      (.call "FN.sqrt" (.cons (.bare "x") .nil)) = some JSNum.nan
    rw [hval, hsqrt]
  · have hval : evalExpr (plotEnv P (.fin (-1)))
        (.call "FN.sqrt" (.cons (.bare "x") .nil))
        = some (P.sqrt (.fin (-1))) := by
      with_unfolding_all rfl
    show evalExpr (plotEnv P (.fin (-1)))
      (.call "FN.sqrt" (.cons (.bare "x") .nil)) ≠ none
    rw [hval]
    simp

/-- C3 witness: a concrete primitive instance with `sqrt (-1) = NaN`. -/
theorem C3_sqrt_neg_sample_is_nan_not_null_witness :
    ∃ f, parseFunction trivPrims "sqrt(x)" = .ok f ∧
      f (.fin (-1)) = some JSNum.nan ∧ f (.fin (-1)) ≠ none :=
  C3_sqrt_neg_sample_is_nan_not_null trivPrims rfl

/-! ## `evaluateScientific` -/

/-- `replace(/π/g, 'Math.PI')` (unconditional, every occurrence). -/
def replacePiChar : List Char → List Char
  | [] => []
  | c :: r =>
      if c = 'π' then
        'M' :: 'a' :: 't' :: 'h' :: '.' :: 'P' :: 'I' :: replacePiChar r
      else c :: replacePiChar r

/-- `replace(/e/g, 'Math.E')` (unconditional, every occurrence of the
letter `e`). -/
def replaceEChar : List Char → List Char
  | [] => []
  | c :: r =>
      if c = 'e' then
        'M' :: 'a' :: 't' :: 'h' :: '.' :: 'E' :: replaceEChar r
      else c :: replaceEChar r

/-- `replace(/Math\.PI|Math\.E/g, '')`: drop those substrings, left to
right (bounded by the input length, which always suffices). -/
def stripMathTokens : ℕ → List Char → List Char
  | 0, l => l
  | _ + 1, [] => []
  | fuel + 1, c :: rest =>
      if "Math.PI".toList.isPrefixOf (c :: rest) then
        stripMathTokens fuel ((c :: rest).drop 7)
      else if "Math.E".toList.isPrefixOf (c :: rest) then
        stripMathTokens fuel ((c :: rest).drop 6)
      else c :: stripMathTokens fuel rest

/-- The validation class of `evaluateScientific`: characters allowed by
`[^0-9+\-*\/().\s%a-z]` (i.e. not rejected). -/
def allowedSciChar (c : Char) : Bool :=
  c.isDigit || c = '+' || c = '-' || c = '*' || c = '/' || c = '(' ||
  c = ')' || c = '.' || c = '%' || jsWhitespace c || isAz c

/-- The scope of `evaluateScientific`'s generated function: the six
named functions (trigonometry degree-aware, `log` is `Math.log10`) and
the global `Math` constants. -/
def sciEnv (P : Prims) (isDeg : Bool) : Env := fun n =>
  if n = "Math.PI" then .val (.fin P.pi)
  else if n = "Math.E" then .val (.fin P.e)
  else if n = "sin" then
    .fn (fun a =>
      if isDeg then P.sin (JSNum.jsDiv (JSNum.jsMul (arg0 a) (.fin P.pi)) (.fin 180))
      else P.sin (arg0 a))
  else if n = "cos" then
    .fn (fun a =>
      if isDeg then P.cos (JSNum.jsDiv (JSNum.jsMul (arg0 a) (.fin P.pi)) (.fin 180))
      else P.cos (arg0 a))
  else if n = "tan" then
    .fn (fun a =>
      if isDeg then P.tan (JSNum.jsDiv (JSNum.jsMul (arg0 a) (.fin P.pi)) (.fin 180))
      else P.tan (arg0 a))
  else if n = "log" then .fn (fun a => P.log10 (arg0 a))
  else if n = "ln" then .fn (fun a => P.ln (arg0 a))
  else if n = "sqrt" then .fn (fun a => P.sqrt (arg0 a))
  else .missing

/-- `evaluateScientific`: substitute `^`, `π`, `e`; reject (null) if any
character outside the allow-list remains after deleting the substituted
`Math.PI`/`Math.E` tokens; then evaluate, converting exceptions to
null.  As in `safeEvaluate` there is no finiteness check. -/
def evaluateScientific (P : Prims) (s : String) (isDeg : Bool) : Option JSNum :=
  let sanitized := replaceEChar (replacePiChar (replaceCaret s.toList))
  if (stripMathTokens sanitized.length sanitized).any
      (fun c => !(allowedSciChar c)) then none
  else
    match parseTop (tokenize sanitized) with
    | some ast => evalExpr (sciEnv P isDeg) ast
    | none => none

/-- C1 amended: `safeEvaluate` and `evaluateScientific` do not signal a
non-finite outcome as a failure; the non-finite value (here `Infinity`
from `1/0`) is returned as a number.  Only thrown exceptions become
null. -/
theorem C1_amended_nonfinite_returned (P : Prims) :
    safeEvaluate "1/0" = some JSNum.inf ∧
    evaluateScientific P "1/0" true = some JSNum.inf ∧
    JSNum.isFinite JSNum.inf = false := by
  refine ⟨by with_unfolding_all decide, ?_, rfl⟩
  with_unfolding_all rfl

/-- C1 amended witness at a concrete primitive instance. -/
theorem C1_amended_nonfinite_returned_witness :
    safeEvaluate "1/0" = some JSNum.inf ∧
    evaluateScientific trivPrims "1/0" true = some JSNum.inf ∧
    JSNum.isFinite JSNum.inf = false :=
  C1_amended_nonfinite_returned trivPrims

/-! ## `solveQuadratic`

The discriminant classification, failure condition, repeated root and
vertex data are exact rational computations and are modelled exactly.
The root values of the `real` and `complex` branches are
4-significant-digit strings computed with the floating-point square
root in the source; the model records how many roots the branch
produces (the length of the `roots` array) rather than those formatted
strings. -/

/-- The root-nature tag of `QuadraticResult`. -/
inductive RootKind where
  | real
  | complex
  | single
deriving DecidableEq, Repr

/-- The numeric content of the source's `QuadraticResult`. -/
structure QuadraticResult where
  rootsCount : ℕ
  rtype : RootKind
  discriminant : ℚ
  vertex : ℚ × ℚ
  axisOfSymmetry : ℚ
  repeatedRoot : Option ℚ
deriving DecidableEq, Repr

/-- `solveQuadratic(a, b, c)`: throws when `a === 0`, otherwise
classifies by the sign of the discriminant `b*b - 4*a*c`; a zero
discriminant yields the single repeated root `-b / (2*a)`. -/
def solveQuadratic (a b c : ℚ) : Except String QuadraticResult :=
  if a = 0 then
    .error "Coefficient a cannot be zero for a quadratic equation."
  else
    let disc := b * b - 4 * a * c
    let vertexX := -b / (2 * a)
    let vertexY := a * vertexX ^ 2 + b * vertexX + c
    if 0 < disc then
      .ok ⟨2, .real, disc, (vertexX, vertexY), vertexX, none⟩
    else if disc = 0 then
      .ok ⟨1, .single, disc, (vertexX, vertexY), vertexX, some (-b / (2 * a))⟩
    else
      .ok ⟨2, .complex, disc, (vertexX, vertexY), vertexX, none⟩

/-- C6: `solveQuadratic` fails exactly when `a = 0`; otherwise it
returns the discriminant `b² - 4ac` and classifies by its sign: one
repeated root `-b/(2a)` tagged `single` at zero, two roots tagged
`real` when positive, a conjugate pair tagged `complex` when
negative. -/
theorem C6_solveQuadratic_classification (a b c : ℚ) :
    ((∃ e, solveQuadratic a b c = .error e) ↔ a = 0) ∧
    (∀ r, solveQuadratic a b c = .ok r →
      r.discriminant = b * b - 4 * a * c ∧
      (0 < r.discriminant → r.rtype = .real ∧ r.rootsCount = 2) ∧
      (r.discriminant = 0 → r.rtype = .single ∧ r.rootsCount = 1 ∧
        r.repeatedRoot = some (-b / (2 * a))) ∧
      (r.discriminant < 0 → r.rtype = .complex ∧ r.rootsCount = 2)) := by
  unfold solveQuadratic
  by_cases ha : a = 0
  · rw [if_pos ha]
    refine ⟨⟨fun _ => ha, fun _ => ⟨_, rfl⟩⟩, fun r hr => absurd hr (by simp)⟩
  · rw [if_neg ha]
    dsimp only
    refine ⟨⟨?_, fun h0 => absurd h0 ha⟩, ?_⟩
    · rintro ⟨e, he⟩
      split_ifs at he
    · intro r hr
      split_ifs at hr with hd1 hd2
      · injection hr with h
        subst h
        refine ⟨rfl, fun _ => ⟨rfl, rfl⟩, fun h2 => ?_, fun h3 => ?_⟩
        · have h2' : b * b - 4 * a * c = 0 := h2
          exfalso; linarith
        · have h3' : b * b - 4 * a * c < 0 := h3
          exfalso; linarith
      · injection hr with h
        subst h
        refine ⟨rfl, fun h1 => ?_, fun _ => ⟨rfl, rfl, rfl⟩, fun h3 => ?_⟩
        · have h1' : 0 < b * b - 4 * a * c := h1
          exfalso; linarith
        · have h3' : b * b - 4 * a * c < 0 := h3
          exfalso; linarith
      · injection hr with h
        subst h
        refine ⟨rfl, fun h1 => ?_, fun h2 => ?_, fun _ => ⟨rfl, rfl⟩⟩
        · have h1' : 0 < b * b - 4 * a * c := h1
          exfalso
          exact absurd h1' hd1
        · have h2' : b * b - 4 * a * c = 0 := h2
          exact absurd h2' hd2

/-- C6 witness: `x² + 2x + 1` has a single repeated root `-1`, and
`x² - 3x + 2` is recognised as the `real` case. -/
theorem C6_solveQuadratic_classification_witness :
    (∀ r, solveQuadratic 1 2 1 = .ok r →
      r.discriminant = 2 * 2 - 4 * 1 * 1 ∧
      (0 < r.discriminant → r.rtype = .real ∧ r.rootsCount = 2) ∧
      (r.discriminant = 0 → r.rtype = .single ∧ r.rootsCount = 1 ∧
        r.repeatedRoot = some (-2 / (2 * 1))) ∧
      (r.discriminant < 0 → r.rtype = .complex ∧ r.rootsCount = 2)) ∧
    ((∃ e, solveQuadratic 1 (-3) 2 = .error e) ↔ (1 : ℚ) = 0) :=
  ⟨(C6_solveQuadratic_classification 1 2 1).2,
   (C6_solveQuadratic_classification 1 (-3) 2).1⟩

/-! ## `primeFactorize`

Trial division: the 2-stripping `while` loop, the odd-candidate `for`
loop (whose condition `i <= Math.sqrt(num)` is rendered as the
equivalent exact test `i * i <= num`), and the final push of any
remainder greater than 2.  The loops are translated with an explicit
iteration bound consumed once per step; every call supplies a bound
(the current value of `num`) that the correctness lemmas show is
sufficient. -/

/-- `while (num % p === 0) { factors.push(p); num /= p; }` -/
def stripFactor (p : ℕ) : ℕ → ℕ → List ℕ × ℕ
  | 0, num => ([], num)
  | fuel + 1, num =>
      if num % p = 0 then
        let r := stripFactor p fuel (num / p)
        (p :: r.1, r.2)
      else ([], num)

/-- `for (i = 3; i*i <= num; i += 2) { strip i }`, returning the pushed
factors and the final remainder. -/
def oddFactorLoop : ℕ → ℕ → ℕ → List ℕ × ℕ
  | 0, _, num => ([], num)
  | fuel + 1, i, num =>
      if i * i ≤ num then
        let s := stripFactor i num num
        let r := oddFactorLoop fuel (i + 2) s.2
        (s.1 ++ r.1, r.2)
      else ([], num)

/-- `primeFactorize` on the underlying natural number: strip 2s, run the
odd loop from 3, and push the remainder if it exceeds 2. -/
def primeFactorizeNat (n : ℕ) : List ℕ :=
  let s2 := stripFactor 2 n n
  let r := oddFactorLoop s2.2 3 s2.2
  s2.1 ++ r.1 ++ (if 2 < r.2 then [r.2] else [])

/-- `primeFactorize(n)`: rejects non-integers and values below 2, and
values above `Number.MAX_SAFE_INTEGER = 2^53 - 1`. -/
def primeFactorize (n : ℚ) : Except String (List ℕ) :=
  if ¬(n.den = 1) ∨ n < 2 then
    .error "Input must be an integer greater than 1."
  else if (2 : ℚ) ^ 53 - 1 < n then
    .error "Input number is too large for safe factorization."
  else .ok (primeFactorizeNat n.num.toNat)

example : primeFactorizeNat 360 = [2, 2, 2, 3, 3, 5] := by
  with_unfolding_all decide
example : primeFactorizeNat 97 = [97] := by with_unfolding_all decide

/-- Specification of the 2-stripping / odd-stripping inner loop: with a
sufficient bound it divides `p` out completely, exactly. -/
lemma stripFactor_spec (p : ℕ) (hp : 2 ≤ p) :
    ∀ fuel num, 0 < num → num ≤ fuel →
    ((stripFactor p fuel num).1.prod * (stripFactor p fuel num).2 = num ∧
     ¬ p ∣ (stripFactor p fuel num).2 ∧
     0 < (stripFactor p fuel num).2 ∧
     ∀ q ∈ (stripFactor p fuel num).1, q = p) := by
  intro fuel
  induction fuel with
  | zero => intro num h1 h2; omega
  | succ fuel ih =>
      intro num h1 h2
      by_cases hmod : num % p = 0
      · have hdvd : p ∣ num := Nat.dvd_of_mod_eq_zero hmod
        have hqpos : 0 < num / p :=
          Nat.div_pos (Nat.le_of_dvd h1 hdvd) (by omega)
        have hqlt : num / p < num := Nat.div_lt_self h1 (by omega)
        have hqle : num / p ≤ fuel := by omega
        obtain ⟨ihp, ihd, ihpos, ihall⟩ := ih (num / p) hqpos hqle
        have hunf : stripFactor p (fuel + 1) num =
            (p :: (stripFactor p fuel (num / p)).1,
             (stripFactor p fuel (num / p)).2) := by
          rw [stripFactor, if_pos hmod]
        rw [hunf]
        refine ⟨?_, ihd, ihpos, ?_⟩
        · simp only [List.prod_cons]
          rw [mul_assoc, ihp, Nat.mul_div_cancel' hdvd]
        · intro q hq
          rcases List.mem_cons.mp hq with h | h
          · exact h
          · exact ihall q h
      · have hunf : stripFactor p (fuel + 1) num = ([], num) := by
          rw [stripFactor, if_neg hmod]
        rw [hunf]
        refine ⟨by simp, ?_, h1, by simp⟩
        intro hdvd
        exact hmod (Nat.mod_eq_zero_of_dvd hdvd)

/-- Elements that are all equal form a sorted list. -/
lemma sorted_of_const {l : List ℕ} {v : ℕ} (h : ∀ q ∈ l, q = v) :
    List.Sorted (· ≤ ·) l := by
  induction l with
  | nil => exact List.sorted_nil
  | cons a t ih =>
      refine List.sorted_cons.mpr
        ⟨?_, ih (fun q hq => h q (List.mem_cons_of_mem a hq))⟩
      intro b hb
      rw [h a (List.mem_cons_self a t), h b (List.mem_cons_of_mem a hb)]

/-- Invariant of the odd-candidate loop: starting at an odd `i ≥ 3` on a
value whose prime factors are all `≥ i`, with a sufficient iteration
bound, the loop emits exactly the prime factors below its stopping
point, sorted, and leaves `1` or a single prime as remainder. -/
lemma oddFactorLoop_spec :
    ∀ fuel i num, Odd i → 3 ≤ i → 0 < num →
    (∀ p, p.Prime → p ∣ num → i ≤ p) →
    num + 2 ≤ 2 * fuel + i →
    ((oddFactorLoop fuel i num).1.prod * (oddFactorLoop fuel i num).2 = num ∧
     List.Sorted (· ≤ ·) (oddFactorLoop fuel i num).1 ∧
     (∀ q ∈ (oddFactorLoop fuel i num).1, q.Prime ∧ i ≤ q) ∧
     0 < (oddFactorLoop fuel i num).2 ∧
     ((oddFactorLoop fuel i num).2 = 1 ∨
      ((oddFactorLoop fuel i num).2.Prime ∧
       ∀ q ∈ (oddFactorLoop fuel i num).1, q ≤ (oddFactorLoop fuel i num).2))) := by
  intro fuel
  induction fuel with
  | zero =>
      intro i num hodd h3 hpos hmin hsuf
      have hnum1 : num = 1 := by
        by_contra hne
        have hp := Nat.minFac_prime hne
        have hd := Nat.minFac_dvd num
        have hge := hmin _ hp hd
        have hle := Nat.minFac_le hpos
        omega
      rw [show oddFactorLoop 0 i num = ([], num) from rfl]
      exact ⟨by simp, List.sorted_nil, by simp, hpos, Or.inl hnum1⟩
  | succ fuel ih =>
      intro i num hodd h3 hpos hmin hsuf
      by_cases hg : i * i ≤ num
      · have hunf : oddFactorLoop (fuel + 1) i num =
            ((stripFactor i num num).1 ++
               (oddFactorLoop fuel (i + 2) (stripFactor i num num).2).1,
             (oddFactorLoop fuel (i + 2) (stripFactor i num num).2).2) := by
          rw [oddFactorLoop, if_pos hg]
        obtain ⟨hsp, hsnd, hspos, hsall⟩ :=
          stripFactor_spec i (by omega) num num hpos le_rfl
        set m1 := (stripFactor i num num).2 with hm1
        set fs := (stripFactor i num num).1 with hfs
        have hm1dvd : m1 ∣ num := ⟨fs.prod, by rw [← hsp, mul_comm]⟩
        have hfsdvd : fs.prod ∣ num := ⟨m1, hsp.symm⟩
        have hminnext : ∀ p, p.Prime → p ∣ m1 → i + 2 ≤ p := by
          intro p hp hpd
          have hpn : p ∣ num := hpd.trans hm1dvd
          have hge : i ≤ p := hmin p hp hpn
          have hne1 : p ≠ i := by
            rintro rfl
            exact hsnd hpd
          have hne2 : p ≠ i + 1 := by
            rintro rfl
            have heven : Even (i + 1) := by
              rcases hodd with ⟨k, hk⟩
              exact ⟨k + 1, by omega⟩
            have := (Nat.Prime.even_iff hp).mp heven
            omega
          omega
        have hoddnext : Odd (i + 2) := by
          rcases hodd with ⟨k, hk⟩
          exact ⟨k + 1, by omega⟩
        have hm1le : m1 ≤ num := Nat.le_of_dvd hpos hm1dvd
        obtain ⟨ihp, ihsort, ihall, ihpos, ihlast⟩ :=
          ih (i + 2) m1 hoddnext (by omega) hspos hminnext (by omega)
        set L2 := (oddFactorLoop fuel (i + 2) m1).1 with hL2
        set m := (oddFactorLoop fuel (i + 2) m1).2 with hm
        have hiprime : i ∈ fs → i.Prime := by
          intro hifs
          have hidvd : i ∣ num := (List.dvd_prod hifs).trans hfsdvd
          have hface := Nat.minFac_prime (show i ≠ 1 by omega)
          have hfd : i.minFac ∣ num := (Nat.minFac_dvd i).trans hidvd
          have h5 := hmin _ hface hfd
          have h6 := Nat.minFac_le (show 0 < i by omega)
          have heq : i.minFac = i := by omega
          rw [← heq]
          exact hface
        rw [hunf]
        refine ⟨?_, ?_, ?_, ihpos, ?_⟩
        · rw [List.prod_append, mul_assoc, ihp, hsp]
        · show List.Pairwise (· ≤ ·) (fs ++ L2)
          refine List.pairwise_append.mpr ⟨sorted_of_const hsall, ihsort, ?_⟩
          intro a ha b hb
          have h7 := hsall a ha
          have h8 := (ihall b hb).2
          omega
        · intro q hq
          rcases List.mem_append.mp hq with h | h
          · have hqi := hsall q h
            subst hqi
            exact ⟨hiprime h, le_rfl⟩
          · obtain ⟨hp1, hp2⟩ := ihall q h
            exact ⟨hp1, by omega⟩
        · rcases ihlast with h1 | ⟨hmp, hml⟩
          · exact Or.inl h1
          · right
            refine ⟨hmp, ?_⟩
            intro q hq
            rcases List.mem_append.mp hq with h | h
            · have hqi := hsall q h
              have hmdvd : m ∣ m1 := ⟨L2.prod, by rw [← ihp, mul_comm]⟩
              have := hminnext m hmp hmdvd
              omega
            · exact hml q h
      · have hunf : oddFactorLoop (fuel + 1) i num = ([], num) := by
          rw [oddFactorLoop, if_neg hg]
        rw [hunf]
        refine ⟨by simp, List.sorted_nil, by simp, hpos, ?_⟩
        by_cases h1 : num = 1
        · exact Or.inl h1
        · right
          refine ⟨?_, by simp⟩
          by_contra hnp
          have hsq := Nat.minFac_sq_le_self hpos hnp
          have hface := Nat.minFac_prime h1
          have hge := hmin _ hface (Nat.minFac_dvd num)
          have hmul : i * i ≤ num.minFac * num.minFac := Nat.mul_le_mul hge hge
          have h2 : num.minFac * num.minFac ≤ num := by
            rwa [pow_two] at hsq
          exact hg (le_trans hmul h2)

/-- Correctness of the trial-division core: for `n ≥ 2` the factor list
multiplies back to `n`, is ascending, and consists of primes. -/
lemma primeFactorizeNat_spec (n : ℕ) (hn : 2 ≤ n) :
    (primeFactorizeNat n).prod = n ∧
    List.Sorted (· ≤ ·) (primeFactorizeNat n) ∧
    ∀ q ∈ primeFactorizeNat n, q.Prime := by
  obtain ⟨hsp, hsnd, hspos, hsall⟩ :=
    stripFactor_spec 2 le_rfl n n (by omega) le_rfl
  set m1 := (stripFactor 2 n n).2 with hm1
  set f2 := (stripFactor 2 n n).1 with hf2
  have hm1dvd : m1 ∣ n := ⟨f2.prod, by rw [← hsp, mul_comm]⟩
  have hmin3 : ∀ p, p.Prime → p ∣ m1 → 3 ≤ p := by
    intro p hp hpd
    have h2 := hp.two_le
    have hne : p ≠ 2 := by
      rintro rfl
      exact hsnd hpd
    omega
  obtain ⟨hop, hosort, hoall, hopos, holast⟩ :=
    oddFactorLoop_spec m1 3 m1 ⟨1, by norm_num⟩ le_rfl hspos hmin3 (by omega)
  set L2 := (oddFactorLoop m1 3 m1).1 with hL2
  set m := (oddFactorLoop m1 3 m1).2 with hm
  have hdef : primeFactorizeNat n =
      f2 ++ L2 ++ (if 2 < m then [m] else []) := rfl
  rcases holast with hm1' | ⟨hmp, hml⟩
  · have hif : (if 2 < m then [m] else []) = [] := by
      rw [if_neg]
      omega
    rw [hdef, hif, List.append_nil]
    refine ⟨?_, ?_, ?_⟩
    · rw [List.prod_append]
      have : L2.prod = m1 := by
        have := hop
        rw [hm1'] at this
        simpa using this
      rw [this, hsp]
    · show List.Pairwise (· ≤ ·) (f2 ++ L2)
      refine List.pairwise_append.mpr ⟨sorted_of_const hsall, hosort, ?_⟩
      intro a ha b hb
      have h7 := hsall a ha
      have h8 := (hoall b hb).2
      omega
    · intro q hq
      rcases List.mem_append.mp hq with h | h
      · rw [hsall q h]; exact Nat.prime_two
      · exact (hoall q h).1
  · have hmdvd : m ∣ m1 := ⟨L2.prod, by rw [← hop, mul_comm]⟩
    have hm3 : 3 ≤ m := hmin3 m hmp hmdvd
    have hif : (if 2 < m then [m] else []) = [m] := by
      rw [if_pos]
      omega
    rw [hdef, hif]
    refine ⟨?_, ?_, ?_⟩
    · rw [List.append_assoc, List.prod_append, List.prod_append]
      simp only [List.prod_cons, List.prod_nil, mul_one]
      rw [hop, hsp]
    · show List.Pairwise (· ≤ ·) (f2 ++ L2 ++ [m])
      rw [List.append_assoc]
      refine List.pairwise_append.mpr
        ⟨sorted_of_const hsall, List.pairwise_append.mpr
          ⟨hosort, List.pairwise_singleton _ _, ?_⟩, ?_⟩
      · intro a ha b hb
        rw [List.mem_singleton] at hb
        subst hb
        exact hml a ha
      · intro a ha b hb
        have h7 := hsall a ha
        rcases List.mem_append.mp hb with h | h
        · have h8 := (hoall b h).2
          omega
        · rw [List.mem_singleton] at h
          omega
    · intro q hq
      rw [List.append_assoc] at hq
      rcases List.mem_append.mp hq with h | h
      · rw [hsall q h]; exact Nat.prime_two
      · rcases List.mem_append.mp h with h' | h'
        · exact (hoall q h').1
        · rw [List.mem_singleton] at h'
          subst h'
          exact hmp

/-- C7: `primeFactorize` succeeds exactly on integral inputs between 2
and `Number.MAX_SAFE_INTEGER = 2^53 - 1`, and on success returns an
ascending sequence of primes whose product is the input exactly. -/
theorem C7_primeFactorize_correct (n : ℚ) :
    ((∃ L, primeFactorize n = .ok L) ↔
      (n.den = 1 ∧ 2 ≤ n ∧ n ≤ 2 ^ 53 - 1)) ∧
    (∀ L, primeFactorize n = .ok L →
      (L.prod : ℚ) = n ∧ List.Sorted (· ≤ ·) L ∧ ∀ q ∈ L, q.Prime) := by
  unfold primeFactorize
  by_cases hg1 : ¬(n.den = 1) ∨ n < 2
  · rw [if_pos hg1]
    refine ⟨⟨fun ⟨L, hL⟩ => absurd hL (by simp), ?_⟩,
      fun L hL => absurd hL (by simp)⟩
    rintro ⟨h1, h2, _⟩
    rcases hg1 with h | h
    · exact absurd h1 h
    · exfalso; linarith
  · rw [if_neg hg1]
    push_neg at hg1
    obtain ⟨hden, hge2⟩ := hg1
    by_cases hg2 : (2 : ℚ) ^ 53 - 1 < n
    · rw [if_pos hg2]
      refine ⟨⟨fun ⟨L, hL⟩ => absurd hL (by simp), ?_⟩,
        fun L hL => absurd hL (by simp)⟩
      rintro ⟨_, _, h3⟩
      exfalso; linarith
    · rw [if_neg hg2]
      have hn' : ((n.num : ℤ) : ℚ) = n := by
        have h0 := Rat.num_div_den n
        rw [hden] at h0
        simpa using h0
      have hnn : 0 ≤ n.num := by
        have hpos : (0 : ℚ) < n := by linarith
        exact le_of_lt (Rat.num_pos.mpr hpos)
      have hcast : ((n.num.toNat : ℕ) : ℚ) = n := by
        have h9 : ((n.num.toNat : ℤ) : ℚ) = ((n.num : ℤ) : ℚ) := by
          rw [Int.toNat_of_nonneg hnn]
        calc ((n.num.toNat : ℕ) : ℚ) = ((n.num.toNat : ℤ) : ℚ) := by
              push_cast; ring
          _ = ((n.num : ℤ) : ℚ) := h9
          _ = n := hn'
      have hnum2 : 2 ≤ n.num.toNat := by
        have : (2 : ℚ) ≤ ((n.num.toNat : ℕ) : ℚ) := by rw [hcast]; exact hge2
        exact_mod_cast this
      refine ⟨⟨fun _ => ⟨hden, hge2, not_lt.mp hg2⟩, fun _ => ⟨_, rfl⟩⟩, ?_⟩
      intro L hL
      have hLe : primeFactorizeNat n.num.toNat = L := by
        injection hL
      subst hLe
      obtain ⟨hprod, hsort, hprime⟩ := primeFactorizeNat_spec _ hnum2
      refine ⟨?_, hsort, hprime⟩
      rw [hprod, hcast]

/-- C7 witness: `360 ↦ [2, 2, 2, 3, 3, 5]` and `97 ↦ [97]`, with the
correctness conjunction instantiated there. -/
theorem C7_primeFactorize_correct_witness :
    primeFactorize 360 = .ok [2, 2, 2, 3, 3, 5] ∧
    (((([2, 2, 2, 3, 3, 5] : List ℕ).prod : ℚ) = 360) ∧
      List.Sorted (· ≤ ·) [2, 2, 2, 3, 3, 5] ∧
      (∀ q ∈ ([2, 2, 2, 3, 3, 5] : List ℕ), q.Prime)) ∧
    primeFactorize 97 = .ok [97] ∧
    (((([97] : List ℕ).prod : ℚ) = 97) ∧
      List.Sorted (· ≤ ·) ([97] : List ℕ) ∧
      (∀ q ∈ ([97] : List ℕ), q.Prime)) := by
  have h360 : primeFactorize 360 = .ok [2, 2, 2, 3, 3, 5] := by
    with_unfolding_all rfl
  have h97 : primeFactorize 97 = .ok [97] := by
    with_unfolding_all rfl
  exact ⟨h360, (C7_primeFactorize_correct 360).2 _ h360,
         h97, (C7_primeFactorize_correct 97).2 _ h97⟩

/-! ## Matrix algebra -/

/-- A matrix: rows of rationals (the name `Matrix` itself is taken by
the library). -/
abbrev Matrix' : Type := List (List ℚ)

/-- Entry access `m[i][j]` (out-of-range reads, which the source never
performs on shape-checked inputs, default to 0). -/
def entry (m : Matrix') (i j : ℕ) : ℚ := (m.getD i []).getD j 0

/-- `transpose`: `[]` for an empty or zero-column input, else column `j`
of the result is `m.map(row => row[j])` for each index `j` of the first
row. -/
def transpose (m : Matrix') : Matrix' :=
  if m.length = 0 ∨ (m.headD []).length = 0 then []
  else
    (List.range (m.headD []).length).map
      (fun j => m.map (fun row => row.getD j 0))

/-- C9 counterexample: a matrix with one row and zero columns is sent to
`[]` by `transpose`, so `transpose (transpose M) ≠ M` there. -/
theorem C9_counterexample_transpose_empty_row :
    transpose (transpose ([[]] : List (List ℚ))) ≠ ([[]] : List (List ℚ)) := by
  intro h
  have : ([] : List (List ℚ)) = [[]] := h
  simp at this

/-- Reading a list back off by index reproduces it. -/
lemma range_map_getD (r : List ℚ) :
    (List.range r.length).map (fun j => r.getD j 0) = r := by
  apply List.ext_getElem (by simp)
  intro k h1 h2
  simp only [List.getElem_map, List.getElem_range]
  exact List.getD_eq_getElem r 0 h2

/-- Index-reading version with an explicit length. -/
lemma range_map_getD_of_len (r : List ℚ) (n : ℕ) (h : r.length = n) :
    (List.range n).map (fun j => r.getD j 0) = r := by
  subst h
  exact range_map_getD r

/-- C9 amended: `transpose (transpose M) = M` for every rectangular
matrix that is empty or has at least one column; a nonempty matrix with
zero-length rows is collapsed to `[]` (the counterexample above). -/
theorem C9_transpose_involution (M : Matrix') (n : ℕ) (hn : 0 < n)
    (hall : ∀ r ∈ M, r.length = n) :
    transpose (transpose M) = M := by
  cases M with
  | nil => rfl
  | cons r0 rest =>
      have hr0 : r0.length = n := hall r0 (List.mem_cons_self _ _)
      have hT : transpose (r0 :: rest) =
          (List.range n).map
            (fun j => (r0 :: rest).map (fun row => row.getD j 0)) := by
        rw [transpose, if_neg, List.headD_cons, hr0]
        rw [List.headD_cons, hr0]
        push_neg
        exact ⟨by simp, by omega⟩
      set T := transpose (r0 :: rest) with hTdef
      have hTlen : T.length = n := by rw [hT]; simp
      have hThead : T.headD [] = (r0 :: rest).map (fun row => row.getD 0 0) := by
        rw [hT]
        obtain ⟨k, rfl⟩ : ∃ k, n = k + 1 := ⟨n - 1, by omega⟩
        rw [List.range_succ_eq_map]
        rfl
      have hTheadlen : (T.headD []).length = rest.length + 1 := by
        rw [hThead]; simp
      have hTT : transpose T = (List.range (rest.length + 1)).map
          (fun i => T.map (fun row => row.getD i 0)) := by
        rw [transpose, if_neg, hTheadlen]
        push_neg
        refine ⟨by rw [hTlen]; omega, by rw [hTheadlen]; omega⟩
      rw [hTT]
      apply List.ext_getElem (by simp)
      intro k h1 h2
      simp only [List.getElem_map, List.getElem_range]
      rw [hT, List.map_map]
      have hrowk : ((r0 :: rest)[k]).length = n :=
        hall _ (List.getElem_mem h2)
      rw [← range_map_getD_of_len ((r0 :: rest)[k]) n hrowk]
      apply List.map_congr_left
      intro j hj
      simp only [Function.comp]
      have hmlen : k < ((r0 :: rest).map (fun row => row.getD j 0)).length := by
        simpa using h2
      rw [List.getD_eq_getElem _ _ hmlen, List.getElem_map]

/-- C9 witness: a concrete square matrix. -/
theorem C9_transpose_involution_witness :
    transpose (transpose ([[1, 2], [3, 4]] : Matrix')) = [[1, 2], [3, 4]] :=
  C9_transpose_involution [[1, 2], [3, 4]] 2 (by omega)
    (by
      intro r hr
      simp only [List.mem_cons, List.not_mem_nil, or_false] at hr
      rcases hr with rfl | rfl <;> rfl)

/-- `getMinor(m, r, c)`: delete row `r` and column `c` (the source's
index filters). -/
def getMinor (m : Matrix') (r c : ℕ) : Matrix' :=
  (m.eraseIdx r).map (fun row => row.eraseIdx c)

/-- Laplace expansion along the first row, with the squareness check
(`m.length === 0 || m.length !== m[0].length`) re-done at each level;
the explicit bound decreases once per expansion level and any value
`≥ m.length` is sufficient (minors shrink by one). -/
def detAux : ℕ → Matrix' → Except String ℚ
  | fuel, m =>
    if m.length = 0 ∨ m.length ≠ (m.headD []).length then
      .error "Wrong Order: Matrix must be square for determinant calculation."
    else if m.length = 1 then .ok (entry m 0 0)
    else if m.length = 2 then
      .ok (entry m 0 0 * entry m 1 1 - entry m 0 1 * entry m 1 0)
    else
      match fuel with
      | 0 => .error "Wrong Order: Matrix must be square for determinant calculation."
      | fuel' + 1 =>
          (List.range m.length).foldlM
            (fun acc c => (detAux fuel' (getMinor m 0 c)).map
              (fun d => acc + (-1 : ℚ) ^ c * entry m 0 c * d))
            (0 : ℚ)

/-- `determinant`. -/
def determinant (m : Matrix') : Except String ℚ := detAux m.length m

/-- Row swap `[aug[i], aug[j]] = [aug[j], aug[i]]`. -/
def swapRows (a : Matrix') (i j : ℕ) : Matrix' :=
  (a.set i (a.getD j [])).set j (a.getD i [])

/-- One outer iteration of the Gauss–Jordan loop: partial pivoting
(largest absolute entry in column `i` from row `i` down, strict
improvement), pivot-row normalization from column `i` on, and
elimination of column `i` from every other row. -/
def gjStep (n : ℕ) (aug : Matrix') (i : ℕ) : Matrix' :=
  let maxRow := (List.range' (i + 1) (n - (i + 1))).foldl
    (fun mr k => if |entry aug k i| > |entry aug mr i| then k else mr) i
  let sw := swapRows aug i maxRow
  let pivot := entry sw i i
  let norm := sw.set i
    ((sw.getD i []).enum.map (fun p => if i ≤ p.1 then p.2 / pivot else p.2))
  norm.enum.map (fun rk =>
    if rk.1 = i then rk.2
    else
      let factor := rk.2.getD i 0
      rk.2.enum.map (fun pj =>
        if i ≤ pj.1 then pj.2 - factor * ((norm.getD i []).getD pj.1 0)
        else pj.2))

/-- Gauss–Jordan elimination on the augmented `[M | I]` matrix; the
inverse is the right half of the result. -/
def gaussJordanInverse (m : Matrix') : Matrix' :=
  let n := m.length
  let augmented := m.enum.map (fun p =>
    p.2 ++ (List.range n).map (fun j => if p.1 = j then (1 : ℚ) else 0))
  let eliminated := (List.range n).foldl (gjStep n) augmented
  eliminated.map (fun row => row.drop n)

/-- `matrixInverse`: squareness check, determinant, the `1e-10`
singularity tolerance, then Gauss–Jordan elimination. -/
def matrixInverse (m : Matrix') : Except String Matrix' :=
  if m.length = 0 ∨ m.length ≠ (m.headD []).length then
    .error "Wrong Order: Matrix must be square for inversion."
  else
    match determinant m with
    | .error e => .error e
    | .ok det =>
        if |det| < 1 / 10 ^ 10 then
          .error "Matrix is singular and cannot be inverted (determinant is zero)."
        else .ok (gaussJordanInverse m)

example : determinant [[1, 2], [3, 4]] = .ok (-2) := by with_unfolding_all rfl

/-- A fold in the `Except` monad whose steps all succeed succeeds. -/
lemma foldlM_ok {α : Type} (g : ℚ → α → Except String ℚ) :
    ∀ (l : List α), (∀ a ∈ l, ∀ q, ∃ r, g q a = .ok r) →
    ∀ (acc : ℚ), ∃ r, l.foldlM g acc = .ok r := by
  intro l
  induction l with
  | nil => exact fun _ acc => ⟨acc, rfl⟩
  | cons a t ih =>
      intro h acc
      obtain ⟨r1, hr1⟩ := h a (List.mem_cons_self _ _) acc
      obtain ⟨r2, hr2⟩ := ih (fun b hb => h b (List.mem_cons_of_mem _ hb)) r1
      refine ⟨r2, ?_⟩
      rw [List.foldlM_cons, hr1]
      exact hr2

/-- Minors of a fully square matrix (along the first row) are fully
square, one order smaller. -/
lemma getMinor_square {m : Matrix'} (hsq : ∀ r ∈ m, r.length = m.length)
    (hn : 2 ≤ m.length) {c : ℕ} (hc : c < m.length) :
    (getMinor m 0 c).length = m.length - 1 ∧
    ∀ r ∈ getMinor m 0 c, r.length = m.length - 1 := by
  constructor
  · rw [getMinor, List.length_map, List.length_eraseIdx, if_pos (by omega)]
  · intro r hr
    rw [getMinor, List.mem_map] at hr
    obtain ⟨row, hrow, rfl⟩ := hr
    have hrow' : row ∈ m := List.mem_of_mem_eraseIdx hrow
    have hlen := hsq row hrow'
    rw [List.length_eraseIdx, hlen, if_pos (by omega)]

/-- The determinant of a fully square nonempty matrix always evaluates
(no `Wrong Order` error is reachable). -/
lemma detAux_ok : ∀ fuel (m : Matrix'), 0 < m.length →
    (∀ r ∈ m, r.length = m.length) → m.length ≤ fuel + 2 →
    ∃ d, detAux fuel m = .ok d := by
  intro fuel
  induction fuel with
  | zero =>
      intro m hpos hsq hle
      have hhead : (m.headD []).length = m.length := by
        cases m with
        | nil => simp at hpos
        | cons r0 rest => exact hsq r0 (List.mem_cons_self _ _)
      rw [detAux.eq_def]
      dsimp only
      rw [if_neg (by omega)]
      by_cases h1 : m.length = 1
      · rw [if_pos h1]; exact ⟨_, rfl⟩
      · rw [if_neg h1, if_pos (by omega)]
        exact ⟨_, rfl⟩
  | succ fuel ih =>
      intro m hpos hsq hle
      have hhead : (m.headD []).length = m.length := by
        cases m with
        | nil => simp at hpos
        | cons r0 rest => exact hsq r0 (List.mem_cons_self _ _)
      rw [detAux.eq_def]
      dsimp only
      rw [if_neg (by omega)]
      by_cases h1 : m.length = 1
      · rw [if_pos h1]; exact ⟨_, rfl⟩
      · rw [if_neg h1]
        by_cases h2 : m.length = 2
        · rw [if_pos h2]; exact ⟨_, rfl⟩
        · rw [if_neg h2]
          apply foldlM_ok
          intro c hc q
          rw [List.mem_range] at hc
          obtain ⟨hlen, hsq'⟩ := getMinor_square hsq (by omega) hc
          obtain ⟨d, hd⟩ := ih (getMinor m 0 c)
            (by omega) (by rw [hlen]; exact hsq') (by omega)
          exact ⟨q + (-1 : ℚ) ^ c * entry m 0 c * d, by rw [hd]; rfl⟩

/-- C8: for a fully square nonempty matrix the determinant evaluates to
some `d`, and `matrixInverse` fails with the singular-matrix error
exactly when `|d| < 1e-10`; otherwise it returns the Gauss–Jordan
elimination of the augmented `[M | I]` matrix. -/
theorem C8_matrixInverse_singularity (m : Matrix') (hpos : 0 < m.length)
    (hsq : ∀ r ∈ m, r.length = m.length) :
    ∃ d, determinant m = .ok d ∧
      (|d| < 1 / 10 ^ 10 → matrixInverse m =
        .error "Matrix is singular and cannot be inverted (determinant is zero).") ∧
      (1 / 10 ^ 10 ≤ |d| → matrixInverse m = .ok (gaussJordanInverse m)) := by
  have hhead : (m.headD []).length = m.length := by
    cases m with
    | nil => simp at hpos
    | cons r0 rest => exact hsq r0 (List.mem_cons_self _ _)
  obtain ⟨d, hd⟩ := detAux_ok m.length m hpos hsq (by omega)
  have hdet : determinant m = .ok d := hd
  refine ⟨d, hdet, ?_, ?_⟩
  · intro hlt
    rw [matrixInverse, if_neg (by omega), hdet]
    dsimp only
    rw [if_pos hlt]
  · intro hge
    rw [matrixInverse, if_neg (by omega), hdet]
    dsimp only
    rw [if_neg (not_lt.mpr hge)]

/-- C8 witness: the 2×2 matrix `[[1,2],[3,4]]` (determinant −2, far
from the tolerance). -/
theorem C8_matrixInverse_singularity_witness :
    ∃ d, determinant [[1, 2], [3, 4]] = .ok d ∧
      (|d| < 1 / 10 ^ 10 → matrixInverse [[1, 2], [3, 4]] =
        .error "Matrix is singular and cannot be inverted (determinant is zero).") ∧
      (1 / 10 ^ 10 ≤ |d| → matrixInverse [[1, 2], [3, 4]] =
        .ok (gaussJordanInverse [[1, 2], [3, 4]])) :=
  C8_matrixInverse_singularity [[1, 2], [3, 4]] (by simp)
    (by
      intro r hr
      simp only [List.mem_cons, List.not_mem_nil, or_false] at hr
      rcases hr with rfl | rfl <;> rfl)
